import Mathlib

/-!
Verification of the snowflake unique-id generator (`src/lib.rs`).

The Rust source keeps a process-wide atomic counter `GLOBAL_COUNTER`
(`next_global` advances it with a compare-and-swap retry loop, asserting
`prev < usize::MAX` before each attempt) and a thread-local
`NEXT_LOCAL_SNOWFLAKE : Snowflake` holding the `(prefix, offset)` pair the
next call will return.  `Snowflake::new()` reads the thread-local value,
returns it, and advances the stored state: it bumps the offset, or — when
the stored offset is `u64::MAX` — acquires a fresh prefix and resets the
offset to 0.  We embed this as an interleaved transition system over an
arbitrary set of thread identifiers: each `step` is one full call of
`Snowflake::new()` by one thread (the CAS loop linearizes at its successful
swap; failed CAS attempts do not change state).  A panic of the source
(`assert!` failure in `next_global`) is modelled as `none`.
-/

/-- `usize::MAX` on the (64-bit) target platform. -/
def USIZE_MAX : Nat := 2 ^ 64 - 1

/-- `u64::MAX`. -/
def U64_MAX : Nat := 2 ^ 64 - 1

/-- Embedding of `fn next_global() -> usize`.  State-passing on the global
counter: returns the handed-out value (`none` = the assertion
`prev < usize::MAX` fired, i.e. panic) together with the counter after the
call.  The successful CAS loop atomically replaces `g` by `g + 1` and
returns the pre-increment value `g`; on the panic path the counter is
untouched because the assertion precedes the compare-and-swap. -/
def next_global (g : Nat) : Option Nat × Nat :=
  if g < USIZE_MAX then (some g, g + 1) else (none, g)

/-- Embedding of `struct Snowflake { prefix: usize, offset: u64 }`
(the Rust field `prefix` is called `pfx` here). -/
structure Snowflake where
  pfx : Nat
  offset : Nat
deriving DecidableEq, Repr

/-- Embedding of the body of `Snowflake::new()` acting on the calling
thread's already-initialized thread-local value `s` and the global counter
`g`: returns `(returned id, new global counter, new thread-local value)`,
or `none` when `next_global` panics. -/
def Snowflake.new (g : Nat) (s : Snowflake) : Option (Snowflake × Nat × Snowflake) :=
  if s.offset = U64_MAX then
    match next_global g with
    | (some p, g') => some (s, g', ⟨p, 0⟩)
    | (none, _) => none
  else
    some (s, g, ⟨s.pfx, s.offset + 1⟩)

/-- Embedding of the lazy initializer of `NEXT_LOCAL_SNOWFLAKE`:
`Snowflake { prefix: next_global(), offset: 0 }`. -/
def threadLocalInit (g : Nat) : Option (Snowflake × Nat) :=
  match next_global g with
  | (some p, g') => some (⟨p, 0⟩, g')
  | (none, _) => none

/-- One full call of `Snowflake::new()` by a thread whose thread-local slot
holds `loc` (`none` = the thread has never touched `NEXT_LOCAL_SNOWFLAKE`,
so the lazy initializer runs first, exactly as `thread_local!` does). -/
def threadNew (g : Nat) (loc : Option Snowflake) : Option (Snowflake × Nat × Snowflake) :=
  match loc with
  | none =>
    match threadLocalInit g with
    | none => none
    | some (s, g') => Snowflake.new g' s
  | some s => Snowflake.new g s

/-- Embedding of `impl Default for Snowflake`: `default()` just calls
`Snowflake::new()`. -/
def Snowflake.defaultCall (g : Nat) (loc : Option Snowflake) :
    Option (Snowflake × Nat × Snowflake) :=
  threadNew g loc

/-- Embedding of the derived `PartialEq` on `Snowflake`: field-wise
comparison of `prefix` and `offset`. -/
def Snowflake.beq (a b : Snowflake) : Bool :=
  a.pfx == b.pfx && a.offset == b.offset

/-- Strict lexicographic order on `(prefix, offset)`. -/
def Snowflake.lexLt (a b : Snowflake) : Prop :=
  a.pfx < b.pfx ∨ (a.pfx = b.pfx ∧ a.offset < b.offset)

instance (a b : Snowflake) : Decidable (Snowflake.lexLt a b) := by
  unfold Snowflake.lexLt
  exact inferInstance

/-- Whole-process state: the global counter plus every thread's
thread-local slot (`none` = that thread's slot is still uninitialized). -/
structure Sys (T : Type) where
  global : Nat
  locals : T → Option Snowflake

variable {T : Type} [DecidableEq T]

/-- One call of `Snowflake::new()` by thread `t`, as a transition of the
whole-process state; returns the produced identifier and the new state, or
`none` if the call panics. -/
def step (σ : Sys T) (t : T) : Option (Snowflake × Sys T) :=
  match threadNew σ.global (σ.locals t) with
  | none => none
  | some (id, g', s') => some (id, ⟨g', Function.update σ.locals t (some s')⟩)

/-- `Snowflake::default()` as a transition of the whole-process state. -/
def stepDefault (σ : Sys T) (t : T) : Option (Snowflake × Sys T) :=
  match Snowflake.defaultCall σ.global (σ.locals t) with
  | none => none
  | some (id, g', s') => some (id, ⟨g', Function.update σ.locals t (some s')⟩)

/-- Run an interleaving: the trace lists, in order, which thread performs
each call.  Produces the list of `(thread, identifier)` pairs issued and
the final state, or `none` if some call panics. -/
def runFrom (σ : Sys T) : List T → Option (List (T × Snowflake) × Sys T)
  | [] => some ([], σ)
  | t :: tr =>
    match step σ t with
    | none => none
    | some (id, σ') =>
      match runFrom σ' tr with
      | none => none
      | some (out, σ'') => some ((t, id) :: out, σ'')

/-- The state of a freshly started process: global counter 0 (static
`AtomicUsize` initializer), every thread-local slot uninitialized. -/
def sysInit : Sys T := ⟨0, fun _ => none⟩

/-- The identifiers issued along an interleaving started in the fresh
process state. -/
def outputs (tr : List T) : Option (List (T × Snowflake)) :=
  (runFrom sysInit tr).map Prod.fst

/-- The identifiers a trace issued to one particular thread, in order. -/
def issuedTo (t : T) (out : List (T × Snowflake)) : List Snowflake :=
  (out.filter fun x => x.1 == t).map Prod.snd

theorem Snowflake.lexLt_trans {a b c : Snowflake}
    (h₁ : a.lexLt b) (h₂ : b.lexLt c) : a.lexLt c := by
  simp only [Snowflake.lexLt] at h₁ h₂ ⊢
  omega

theorem zero_ne_U64_MAX : (0 : Nat) ≠ U64_MAX := by decide

/-- Inversion of one generation step: the source's three behaviours.
Either the thread-local slot was uninitialized (lazy init acquires a
prefix, the returned id is `(global, 0)`), or the stored offset was below
`u64::MAX` (fast path), or it was exactly `u64::MAX` (rollover). -/
theorem step_inv (σ : Sys T) (t : T) (id : Snowflake) (σ' : Sys T)
    (h : step σ t = some (id, σ')) :
    (σ.locals t = none ∧ σ.global < USIZE_MAX ∧ id = ⟨σ.global, 0⟩ ∧
      σ' = ⟨σ.global + 1, Function.update σ.locals t (some ⟨σ.global, 1⟩)⟩) ∨
    (σ.locals t = some id ∧ id.offset ≠ U64_MAX ∧
      σ' = ⟨σ.global, Function.update σ.locals t (some ⟨id.pfx, id.offset + 1⟩)⟩) ∨
    (σ.locals t = some id ∧ id.offset = U64_MAX ∧ σ.global < USIZE_MAX ∧
      σ' = ⟨σ.global + 1, Function.update σ.locals t (some ⟨σ.global, 0⟩)⟩) := by
  cases hl : σ.locals t with
  | none =>
    left
    by_cases hg : σ.global < USIZE_MAX
    · simp only [step, threadNew, threadLocalInit, next_global, Snowflake.new, hl,
        if_pos hg, if_neg (Ne.symm zero_ne_U64_MAX)] at h
      obtain ⟨h₁, h₂⟩ := Prod.mk.injEq .. ▸ Option.some.inj h
      exact ⟨rfl, hg, h₁.symm, h₂.symm⟩
    · simp only [step, threadNew, threadLocalInit, next_global, hl, if_neg hg] at h
      exact Option.noConfusion h
  | some s =>
    right
    by_cases ho : s.offset = U64_MAX
    · right
      by_cases hg : σ.global < USIZE_MAX
      · simp only [step, threadNew, next_global, Snowflake.new, hl,
          if_pos ho, if_pos hg] at h
        obtain ⟨h₁, h₂⟩ := Prod.mk.injEq .. ▸ Option.some.inj h
        subst h₁
        exact ⟨rfl, ho, hg, h₂.symm⟩
      · simp only [step, threadNew, next_global, Snowflake.new, hl,
          if_pos ho, if_neg hg] at h
        exact Option.noConfusion h
    · left
      simp only [step, threadNew, Snowflake.new, hl, if_neg ho] at h
      obtain ⟨h₁, h₂⟩ := Prod.mk.injEq .. ▸ Option.some.inj h
      subst h₁
      exact ⟨rfl, ho, h₂.symm⟩

/-- Invariant tying a reachable whole-process state to the history `out`
of `(thread, identifier)` pairs issued so far. -/
structure SysInv (σ : Sys T) (out : List (T × Snowflake)) : Prop where
  pfxInj : ∀ t₁ t₂ s₁ s₂, σ.locals t₁ = some s₁ → σ.locals t₂ = some s₂ →
    s₁.pfx = s₂.pfx → t₁ = t₂
  pfxLt : ∀ t s, σ.locals t = some s → s.pfx < σ.global
  outPfxLt : ∀ x ∈ out, x.2.pfx < σ.global
  outOffLt : ∀ x ∈ out, ∀ t s, σ.locals t = some s → x.2.pfx = s.pfx →
    x.2.offset < s.offset
  outOwner : ∀ x ∈ out, ∀ t s, σ.locals t = some s → x.2.pfx = s.pfx → x.1 = t
  outBound : ∀ x ∈ out, ∀ s, σ.locals x.1 = some s → x.2.lexLt s
  outActive : ∀ x ∈ out, σ.locals x.1 ≠ none
  outDistinct : List.Pairwise (fun a b => a.2 ≠ b.2) out
  outThreadMono : List.Pairwise (fun a b => a.1 = b.1 → a.2.lexLt b.2) out
  outPfxThread : List.Pairwise (fun a b => a.2.pfx = b.2.pfx → a.1 = b.1) out
  globalLe : σ.global ≤ USIZE_MAX

theorem SysInv.initial : SysInv (sysInit (T := T)) [] := by
  constructor <;> simp [sysInit, USIZE_MAX]

/-- One generation step preserves the invariant, recording the issued
identifier at the end of the history. -/
theorem SysInv.step_preserved {σ σ' : Sys T} {out : List (T × Snowflake)} {t : T}
    {id : Snowflake} (hInv : SysInv σ out) (h : step σ t = some (id, σ')) :
    SysInv σ' (out ++ [(t, id)]) := by
  obtain ⟨pfxInj, pfxLt, outPfxLt, outOffLt, outOwner, outBound, outActive,
    outDistinct, outThreadMono, outPfxThread, globalLe⟩ := hInv
  rcases step_inv σ t id σ' h with
    ⟨hl, hg, rfl, rfl⟩ | ⟨hl, ho, rfl⟩ | ⟨hl, ho, hg, rfl⟩
  · -- lazy initialization: id = (global, 0), slot becomes (global, 1)
    refine ⟨?_, ?_, ?_, ?_, ?_, ?_, ?_, ?_, ?_, ?_, ?_⟩
    · intro t₁ t₂ s₁ s₂ h₁ h₂ hpe
      replace h₁ : Function.update σ.locals t (some ⟨σ.global, 1⟩) t₁ = some s₁ := h₁
      replace h₂ : Function.update σ.locals t (some ⟨σ.global, 1⟩) t₂ = some s₂ := h₂
      by_cases e₁ : t₁ = t <;> by_cases e₂ : t₂ = t
      · exact e₁.trans e₂.symm
      · subst e₁
        rw [Function.update_same] at h₁
        rw [Function.update_noteq e₂] at h₂
        injection h₁ with h₁
        subst h₁
        replace hpe : σ.global = s₂.pfx := hpe
        exact absurd (pfxLt t₂ s₂ h₂) (by omega)
      · subst e₂
        rw [Function.update_same] at h₂
        rw [Function.update_noteq e₁] at h₁
        injection h₂ with h₂
        subst h₂
        replace hpe : s₁.pfx = σ.global := hpe
        exact absurd (pfxLt t₁ s₁ h₁) (by omega)
      · rw [Function.update_noteq e₁] at h₁
        rw [Function.update_noteq e₂] at h₂
        exact pfxInj t₁ t₂ s₁ s₂ h₁ h₂ hpe
    · intro t' s' h'
      replace h' : Function.update σ.locals t (some ⟨σ.global, 1⟩) t' = some s' := h'
      show s'.pfx < σ.global + 1
      by_cases e : t' = t
      · subst e
        rw [Function.update_same] at h'
        injection h' with h'
        subst h'
        show σ.global < σ.global + 1
        omega
      · rw [Function.update_noteq e] at h'
        have := pfxLt t' s' h'
        omega
    · intro x hx
      show x.2.pfx < σ.global + 1
      rcases List.mem_append.1 hx with hx | hx
      · have := outPfxLt x hx
        omega
      · rcases List.mem_singleton.1 hx with rfl
        show σ.global < σ.global + 1
        omega
    · intro x hx t' s' h' hpe
      replace h' : Function.update σ.locals t (some ⟨σ.global, 1⟩) t' = some s' := h'
      by_cases e : t' = t
      · subst e
        rw [Function.update_same] at h'
        injection h' with h'
        subst h'
        replace hpe : x.2.pfx = σ.global := hpe
        rcases List.mem_append.1 hx with hx | hx
        · exact absurd (outPfxLt x hx) (by omega)
        · rcases List.mem_singleton.1 hx with rfl
          show (0 : Nat) < 1
          omega
      · rw [Function.update_noteq e] at h'
        rcases List.mem_append.1 hx with hx | hx
        · exact outOffLt x hx t' s' h' hpe
        · rcases List.mem_singleton.1 hx with rfl
          replace hpe : σ.global = s'.pfx := hpe
          exact absurd (pfxLt t' s' h') (by omega)
    · intro x hx t' s' h' hpe
      replace h' : Function.update σ.locals t (some ⟨σ.global, 1⟩) t' = some s' := h'
      by_cases e : t' = t
      · subst e
        rw [Function.update_same] at h'
        injection h' with h'
        subst h'
        replace hpe : x.2.pfx = σ.global := hpe
        rcases List.mem_append.1 hx with hx | hx
        · exact absurd (outPfxLt x hx) (by omega)
        · rcases List.mem_singleton.1 hx with rfl
          rfl
      · rw [Function.update_noteq e] at h'
        rcases List.mem_append.1 hx with hx | hx
        · exact outOwner x hx t' s' h' hpe
        · rcases List.mem_singleton.1 hx with rfl
          replace hpe : σ.global = s'.pfx := hpe
          exact absurd (pfxLt t' s' h') (by omega)
    · intro x hx s' h'
      rcases List.mem_append.1 hx with hx | hx
      · by_cases e : x.1 = t
        · exact absurd (show σ.locals x.1 = none by rw [e, hl]) (outActive x hx)
        · replace h' : Function.update σ.locals t (some ⟨σ.global, 1⟩) x.1 = some s' := h'
          rw [Function.update_noteq e] at h'
          exact outBound x hx s' h'
      · rcases List.mem_singleton.1 hx with rfl
        replace h' : Function.update σ.locals t (some ⟨σ.global, 1⟩) t = some s' := h'
        rw [Function.update_same] at h'
        injection h' with h'
        subst h'
        exact Or.inr ⟨rfl, Nat.zero_lt_one⟩
    · intro x hx
      show Function.update σ.locals t (some ⟨σ.global, 1⟩) x.1 ≠ none
      by_cases e : x.1 = t
      · rw [e, Function.update_same]
        simp
      · rw [Function.update_noteq e]
        rcases List.mem_append.1 hx with hx | hx
        · exact outActive x hx
        · rcases List.mem_singleton.1 hx with rfl
          exact absurd rfl e
    · refine List.pairwise_append.2 ⟨outDistinct, List.pairwise_singleton .., ?_⟩
      intro a ha b hb hab
      rcases List.mem_singleton.1 hb with rfl
      replace hab : a.2 = Snowflake.mk σ.global 0 := hab
      have h1 := outPfxLt a ha
      rw [hab] at h1
      replace h1 : σ.global < σ.global := h1
      omega
    · refine List.pairwise_append.2 ⟨outThreadMono, List.pairwise_singleton .., ?_⟩
      intro a ha b hb hab
      rcases List.mem_singleton.1 hb with rfl
      replace hab : a.1 = t := hab
      exact absurd (show σ.locals a.1 = none by rw [hab, hl]) (outActive a ha)
    · refine List.pairwise_append.2 ⟨outPfxThread, List.pairwise_singleton .., ?_⟩
      intro a ha b hb hab
      rcases List.mem_singleton.1 hb with rfl
      replace hab : a.2.pfx = σ.global := hab
      exact absurd (outPfxLt a ha) (by omega)
    · show σ.global + 1 ≤ USIZE_MAX
      omega
  · -- fast path: stored offset below u64::MAX, id = stored pair
    refine ⟨?_, ?_, ?_, ?_, ?_, ?_, ?_, ?_, ?_, ?_, ?_⟩
    · intro t₁ t₂ s₁ s₂ h₁ h₂ hpe
      replace h₁ : Function.update σ.locals t (some ⟨id.pfx, id.offset + 1⟩) t₁ = some s₁ := h₁
      replace h₂ : Function.update σ.locals t (some ⟨id.pfx, id.offset + 1⟩) t₂ = some s₂ := h₂
      by_cases e₁ : t₁ = t <;> by_cases e₂ : t₂ = t
      · exact e₁.trans e₂.symm
      · subst e₁
        rw [Function.update_same] at h₁
        rw [Function.update_noteq e₂] at h₂
        injection h₁ with h₁
        subst h₁
        replace hpe : id.pfx = s₂.pfx := hpe
        exact pfxInj t₁ t₂ id s₂ hl h₂ hpe
      · subst e₂
        rw [Function.update_same] at h₂
        rw [Function.update_noteq e₁] at h₁
        injection h₂ with h₂
        subst h₂
        replace hpe : s₁.pfx = id.pfx := hpe
        exact pfxInj t₁ t₂ s₁ id h₁ hl hpe
      · rw [Function.update_noteq e₁] at h₁
        rw [Function.update_noteq e₂] at h₂
        exact pfxInj t₁ t₂ s₁ s₂ h₁ h₂ hpe
    · intro t' s' h'
      replace h' : Function.update σ.locals t (some ⟨id.pfx, id.offset + 1⟩) t' = some s' := h'
      show s'.pfx < σ.global
      by_cases e : t' = t
      · subst e
        rw [Function.update_same] at h'
        injection h' with h'
        subst h'
        show id.pfx < σ.global
        exact pfxLt t' id hl
      · rw [Function.update_noteq e] at h'
        exact pfxLt t' s' h'
    · intro x hx
      show x.2.pfx < σ.global
      rcases List.mem_append.1 hx with hx | hx
      · exact outPfxLt x hx
      · rcases List.mem_singleton.1 hx with rfl
        exact pfxLt t id hl
    · intro x hx t' s' h' hpe
      replace h' : Function.update σ.locals t (some ⟨id.pfx, id.offset + 1⟩) t' = some s' := h'
      by_cases e : t' = t
      · subst e
        rw [Function.update_same] at h'
        injection h' with h'
        subst h'
        replace hpe : x.2.pfx = id.pfx := hpe
        show x.2.offset < id.offset + 1
        rcases List.mem_append.1 hx with hx | hx
        · have := outOffLt x hx t' id hl hpe
          omega
        · rcases List.mem_singleton.1 hx with rfl
          show id.offset < id.offset + 1
          omega
      · rw [Function.update_noteq e] at h'
        rcases List.mem_append.1 hx with hx | hx
        · exact outOffLt x hx t' s' h' hpe
        · rcases List.mem_singleton.1 hx with rfl
          replace hpe : id.pfx = s'.pfx := hpe
          exact absurd (pfxInj t t' id s' hl h' hpe) (Ne.symm e)
    · intro x hx t' s' h' hpe
      replace h' : Function.update σ.locals t (some ⟨id.pfx, id.offset + 1⟩) t' = some s' := h'
      by_cases e : t' = t
      · subst e
        rw [Function.update_same] at h'
        injection h' with h'
        subst h'
        replace hpe : x.2.pfx = id.pfx := hpe
        rcases List.mem_append.1 hx with hx | hx
        · exact outOwner x hx t' id hl hpe
        · rcases List.mem_singleton.1 hx with rfl
          rfl
      · rw [Function.update_noteq e] at h'
        rcases List.mem_append.1 hx with hx | hx
        · exact outOwner x hx t' s' h' hpe
        · rcases List.mem_singleton.1 hx with rfl
          replace hpe : id.pfx = s'.pfx := hpe
          exact absurd (pfxInj t t' id s' hl h' hpe) (Ne.symm e)
    · intro x hx s' h'
      rcases List.mem_append.1 hx with hx | hx
      · by_cases e : x.1 = t
        · replace h' : Function.update σ.locals t (some ⟨id.pfx, id.offset + 1⟩) x.1 = some s' := h'
          rw [e, Function.update_same] at h'
          injection h' with h'
          subst h'
          have h1 : x.2.lexLt id := outBound x hx id (by rw [e]; exact hl)
          exact Snowflake.lexLt_trans h1 (Or.inr ⟨rfl, Nat.lt_succ_self _⟩)
        · replace h' : Function.update σ.locals t (some ⟨id.pfx, id.offset + 1⟩) x.1 = some s' := h'
          rw [Function.update_noteq e] at h'
          exact outBound x hx s' h'
      · rcases List.mem_singleton.1 hx with rfl
        replace h' : Function.update σ.locals t (some ⟨id.pfx, id.offset + 1⟩) t = some s' := h'
        rw [Function.update_same] at h'
        injection h' with h'
        subst h'
        exact Or.inr ⟨rfl, Nat.lt_succ_self _⟩
    · intro x hx
      show Function.update σ.locals t (some ⟨id.pfx, id.offset + 1⟩) x.1 ≠ none
      by_cases e : x.1 = t
      · rw [e, Function.update_same]
        simp
      · rw [Function.update_noteq e]
        rcases List.mem_append.1 hx with hx | hx
        · exact outActive x hx
        · rcases List.mem_singleton.1 hx with rfl
          exact absurd rfl e
    · refine List.pairwise_append.2 ⟨outDistinct, List.pairwise_singleton .., ?_⟩
      intro a ha b hb hab
      rcases List.mem_singleton.1 hb with rfl
      replace hab : a.2 = id := hab
      have h1 := outOffLt a ha t id hl (by rw [hab])
      rw [hab] at h1
      exact absurd h1 (by omega)
    · refine List.pairwise_append.2 ⟨outThreadMono, List.pairwise_singleton .., ?_⟩
      intro a ha b hb hab
      rcases List.mem_singleton.1 hb with rfl
      replace hab : a.1 = t := hab
      exact outBound a ha id (by rw [hab]; exact hl)
    · refine List.pairwise_append.2 ⟨outPfxThread, List.pairwise_singleton .., ?_⟩
      intro a ha b hb hab
      rcases List.mem_singleton.1 hb with rfl
      replace hab : a.2.pfx = id.pfx := hab
      exact outOwner a ha t id hl hab
    · exact globalLe
  · -- rollover: stored offset is u64::MAX, fresh prefix acquired
    refine ⟨?_, ?_, ?_, ?_, ?_, ?_, ?_, ?_, ?_, ?_, ?_⟩
    · intro t₁ t₂ s₁ s₂ h₁ h₂ hpe
      replace h₁ : Function.update σ.locals t (some ⟨σ.global, 0⟩) t₁ = some s₁ := h₁
      replace h₂ : Function.update σ.locals t (some ⟨σ.global, 0⟩) t₂ = some s₂ := h₂
      by_cases e₁ : t₁ = t <;> by_cases e₂ : t₂ = t
      · exact e₁.trans e₂.symm
      · subst e₁
        rw [Function.update_same] at h₁
        rw [Function.update_noteq e₂] at h₂
        injection h₁ with h₁
        subst h₁
        replace hpe : σ.global = s₂.pfx := hpe
        exact absurd (pfxLt t₂ s₂ h₂) (by omega)
      · subst e₂
        rw [Function.update_same] at h₂
        rw [Function.update_noteq e₁] at h₁
        injection h₂ with h₂
        subst h₂
        replace hpe : s₁.pfx = σ.global := hpe
        exact absurd (pfxLt t₁ s₁ h₁) (by omega)
      · rw [Function.update_noteq e₁] at h₁
        rw [Function.update_noteq e₂] at h₂
        exact pfxInj t₁ t₂ s₁ s₂ h₁ h₂ hpe
    · intro t' s' h'
      replace h' : Function.update σ.locals t (some ⟨σ.global, 0⟩) t' = some s' := h'
      show s'.pfx < σ.global + 1
      by_cases e : t' = t
      · subst e
        rw [Function.update_same] at h'
        injection h' with h'
        subst h'
        show σ.global < σ.global + 1
        omega
      · rw [Function.update_noteq e] at h'
        have := pfxLt t' s' h'
        omega
    · intro x hx
      show x.2.pfx < σ.global + 1
      rcases List.mem_append.1 hx with hx | hx
      · have := outPfxLt x hx
        omega
      · rcases List.mem_singleton.1 hx with rfl
        have := pfxLt t id hl
        show id.pfx < σ.global + 1
        omega
    · intro x hx t' s' h' hpe
      replace h' : Function.update σ.locals t (some ⟨σ.global, 0⟩) t' = some s' := h'
      by_cases e : t' = t
      · subst e
        rw [Function.update_same] at h'
        injection h' with h'
        subst h'
        replace hpe : x.2.pfx = σ.global := hpe
        rcases List.mem_append.1 hx with hx | hx
        · exact absurd (outPfxLt x hx) (by omega)
        · rcases List.mem_singleton.1 hx with rfl
          replace hpe : id.pfx = σ.global := hpe
          exact absurd (pfxLt t' id hl) (by omega)
      · rw [Function.update_noteq e] at h'
        rcases List.mem_append.1 hx with hx | hx
        · exact outOffLt x hx t' s' h' hpe
        · rcases List.mem_singleton.1 hx with rfl
          replace hpe : id.pfx = s'.pfx := hpe
          exact absurd (pfxInj t t' id s' hl h' hpe) (Ne.symm e)
    · intro x hx t' s' h' hpe
      replace h' : Function.update σ.locals t (some ⟨σ.global, 0⟩) t' = some s' := h'
      by_cases e : t' = t
      · subst e
        rw [Function.update_same] at h'
        injection h' with h'
        subst h'
        replace hpe : x.2.pfx = σ.global := hpe
        rcases List.mem_append.1 hx with hx | hx
        · exact absurd (outPfxLt x hx) (by omega)
        · rcases List.mem_singleton.1 hx with rfl
          rfl
      · rw [Function.update_noteq e] at h'
        rcases List.mem_append.1 hx with hx | hx
        · exact outOwner x hx t' s' h' hpe
        · rcases List.mem_singleton.1 hx with rfl
          replace hpe : id.pfx = s'.pfx := hpe
          exact absurd (pfxInj t t' id s' hl h' hpe) (Ne.symm e)
    · intro x hx s' h'
      rcases List.mem_append.1 hx with hx | hx
      · by_cases e : x.1 = t
        · replace h' : Function.update σ.locals t (some ⟨σ.global, 0⟩) x.1 = some s' := h'
          rw [e, Function.update_same] at h'
          injection h' with h'
          subst h'
          exact Or.inl (outPfxLt x hx)
        · replace h' : Function.update σ.locals t (some ⟨σ.global, 0⟩) x.1 = some s' := h'
          rw [Function.update_noteq e] at h'
          exact outBound x hx s' h'
      · rcases List.mem_singleton.1 hx with rfl
        replace h' : Function.update σ.locals t (some ⟨σ.global, 0⟩) t = some s' := h'
        rw [Function.update_same] at h'
        injection h' with h'
        subst h'
        exact Or.inl (pfxLt t id hl)
    · intro x hx
      show Function.update σ.locals t (some ⟨σ.global, 0⟩) x.1 ≠ none
      by_cases e : x.1 = t
      · rw [e, Function.update_same]
        simp
      · rw [Function.update_noteq e]
        rcases List.mem_append.1 hx with hx | hx
        · exact outActive x hx
        · rcases List.mem_singleton.1 hx with rfl
          exact absurd rfl e
    · refine List.pairwise_append.2 ⟨outDistinct, List.pairwise_singleton .., ?_⟩
      intro a ha b hb hab
      rcases List.mem_singleton.1 hb with rfl
      replace hab : a.2 = id := hab
      have h1 := outOffLt a ha t id hl (by rw [hab])
      rw [hab] at h1
      exact absurd h1 (by omega)
    · refine List.pairwise_append.2 ⟨outThreadMono, List.pairwise_singleton .., ?_⟩
      intro a ha b hb hab
      rcases List.mem_singleton.1 hb with rfl
      replace hab : a.1 = t := hab
      exact outBound a ha id (by rw [hab]; exact hl)
    · refine List.pairwise_append.2 ⟨outPfxThread, List.pairwise_singleton .., ?_⟩
      intro a ha b hb hab
      rcases List.mem_singleton.1 hb with rfl
      replace hab : a.2.pfx = id.pfx := hab
      exact outOwner a ha t id hl hab
    · show σ.global + 1 ≤ USIZE_MAX
      omega

/-- Running any interleaving preserves the invariant, appending the issued
identifiers to the history. -/
theorem SysInv.runFrom_preserved {σ σ' : Sys T} {out out' : List (T × Snowflake)}
    {tr : List T} (hInv : SysInv σ out) (h : runFrom σ tr = some (out', σ')) :
    SysInv σ' (out ++ out') := by
  induction tr generalizing σ out out' with
  | nil =>
    simp only [runFrom] at h
    obtain ⟨h₁, h₂⟩ := Prod.mk.injEq .. ▸ Option.some.inj h
    subst h₁
    subst h₂
    simpa using hInv
  | cons t tr ih =>
    cases hs : step σ t with
    | none =>
      simp only [runFrom, hs] at h
      exact Option.noConfusion h
    | some p =>
      obtain ⟨id, σ₁⟩ := p
      simp only [runFrom, hs] at h
      cases hr : runFrom σ₁ tr with
      | none =>
        rw [hr] at h
        exact Option.noConfusion h
      | some q =>
        obtain ⟨out₁, σ₂⟩ := q
        rw [hr] at h
        obtain ⟨h₁, h₂⟩ := Prod.mk.injEq .. ▸ Option.some.inj h
        subst h₁
        subst h₂
        have h3 := SysInv.step_preserved hInv hs
        have h4 := ih h3 hr
        rw [List.append_assoc] at h4
        simpa using h4

/-- The threads recorded in the output are exactly the trace. -/
theorem runFrom_fst {σ σ' : Sys T} {tr : List T} {out : List (T × Snowflake)}
    (h : runFrom σ tr = some (out, σ')) : out.map Prod.fst = tr := by
  induction tr generalizing σ out σ' with
  | nil =>
    simp only [runFrom] at h
    obtain ⟨h₁, h₂⟩ := Prod.mk.injEq .. ▸ Option.some.inj h
    subst h₁
    rfl
  | cons t tr ih =>
    cases hs : step σ t with
    | none =>
      simp only [runFrom, hs] at h
      exact Option.noConfusion h
    | some p =>
      obtain ⟨id, σ₁⟩ := p
      simp only [runFrom, hs] at h
      cases hr : runFrom σ₁ tr with
      | none =>
        rw [hr] at h
        exact Option.noConfusion h
      | some q =>
        obtain ⟨out₁, σ₂⟩ := q
        rw [hr] at h
        obtain ⟨h₁, h₂⟩ := Prod.mk.injEq .. ▸ Option.some.inj h
        subst h₁
        simp [ih hr]

/-- Every complete run from the fresh process state reaches a state
satisfying the invariant over its full output history. -/
theorem outputs_inv {tr : List T} {out : List (T × Snowflake)}
    (h : outputs tr = some out) :
    ∃ σ, runFrom (sysInit (T := T)) tr = some (out, σ) ∧ SysInv σ out := by
  unfold outputs at h
  cases hr : runFrom (sysInit (T := T)) tr with
  | none =>
    rw [hr] at h
    exact Option.noConfusion h
  | some p =>
    obtain ⟨out₁, σ⟩ := p
    rw [hr] at h
    replace h : some out₁ = some out := h
    injection h with h
    subst h
    refine ⟨σ, rfl, ?_⟩
    have h4 := SysInv.runFrom_preserved SysInv.initial hr
    simpa using h4

/-- Forward equation for the fast path of a call. -/
theorem step_fast_eq {σ : Sys T} {t : T} {s : Snowflake}
    (hl : σ.locals t = some s) (ho : s.offset ≠ U64_MAX) :
    step σ t = some (s, ⟨σ.global,
      Function.update σ.locals t (some ⟨s.pfx, s.offset + 1⟩)⟩) := by
  simp only [step, threadNew, Snowflake.new, hl, if_neg ho]

/-- Forward equation for the rollover path of a call. -/
theorem step_rollover_eq {σ : Sys T} {t : T} {s : Snowflake}
    (hl : σ.locals t = some s) (ho : s.offset = U64_MAX) (hg : σ.global < USIZE_MAX) :
    step σ t = some (s, ⟨σ.global + 1,
      Function.update σ.locals t (some ⟨σ.global, 0⟩)⟩) := by
  simp only [step, threadNew, Snowflake.new, next_global, hl, if_pos ho, if_pos hg]

/-- Runs compose over concatenated traces. -/
theorem runFrom_append {σ σ₁ σ₂ : Sys T} {tr₁ tr₂ : List T}
    {out₁ out₂ : List (T × Snowflake)}
    (h₁ : runFrom σ tr₁ = some (out₁, σ₁)) (h₂ : runFrom σ₁ tr₂ = some (out₂, σ₂)) :
    runFrom σ (tr₁ ++ tr₂) = some (out₁ ++ out₂, σ₂) := by
  induction tr₁ generalizing σ out₁ with
  | nil =>
    simp only [runFrom] at h₁
    obtain ⟨e₁, e₂⟩ := Prod.mk.injEq .. ▸ Option.some.inj h₁
    subst e₁
    subst e₂
    simpa using h₂
  | cons a tr ih =>
    cases hs : step σ a with
    | none =>
      simp only [runFrom, hs] at h₁
      exact Option.noConfusion h₁
    | some p =>
      obtain ⟨id, σ'⟩ := p
      simp only [runFrom, hs] at h₁
      cases hr : runFrom σ' tr with
      | none =>
        rw [hr] at h₁
        exact Option.noConfusion h₁
      | some q =>
        obtain ⟨outr, σr⟩ := q
        rw [hr] at h₁
        obtain ⟨e₁, e₂⟩ := Prod.mk.injEq .. ▸ Option.some.inj h₁
        subst e₁
        subst e₂
        have h3 := ih hr
        show runFrom σ (a :: (tr ++ tr₂)) = _
        simp only [runFrom, hs, h3]
        rfl

/-- C1.  Global distinctness: along any interleaving of calls by any
threads, started from the fresh process state, the identifiers returned by
distinct calls to `Snowflake::new()` are pairwise unequal — no
`(prefix, offset)` pair is returned twice. -/
theorem global_distinctness {tr : List T} {out : List (T × Snowflake)}
    (h : outputs tr = some out) :
    List.Pairwise (fun a b => a ≠ b) (out.map Prod.snd) := by
  obtain ⟨σ, _, hInv⟩ := outputs_inv h
  exact List.pairwise_map.2 hInv.outDistinct

/-- Witness for C1 on the concrete interleaving T1, T1, T2. -/
theorem global_distinctness_witness :
    List.Pairwise (fun a b => a ≠ b)
      (([(0, ⟨0, 0⟩), (0, ⟨0, 1⟩), (1, ⟨1, 0⟩)] : List (Nat × Snowflake)).map
        Prod.snd) :=
  @global_distinctness Nat _ [0, 0, 1]
    [(0, ⟨0, 0⟩), (0, ⟨0, 1⟩), (1, ⟨1, 0⟩)] (by decide)

/-- C3.  Boundary rollover: in any invariant-satisfying state (the
invariant holds along every run from the fresh state, by
`SysInv.runFrom_preserved`), a thread whose reservation is `(P, u64::MAX)`
gets `(P, u64::MAX)` from the next call, its slot becomes `(P', 0)` for the
freshly acquired prefix `P'`, and `P'` was never returned to any thread —
it is no issued identifier's prefix and no thread's current prefix. -/
theorem boundary_rollover {σ : Sys T} {out : List (T × Snowflake)} {t : T} {P : Nat}
    (hInv : SysInv σ out) (hl : σ.locals t = some ⟨P, U64_MAX⟩)
    (hg : σ.global < USIZE_MAX) :
    ∃ P', step σ t = some (⟨P, U64_MAX⟩,
        ⟨σ.global + 1, Function.update σ.locals t (some ⟨P', 0⟩)⟩) ∧
      (∀ x ∈ out, x.2.pfx ≠ P') ∧
      (∀ u s, σ.locals u = some s → s.pfx ≠ P') := by
  refine ⟨σ.global, step_rollover_eq hl rfl hg, ?_, ?_⟩
  · intro x hx hpx
    have h1 := hInv.outPfxLt x hx
    omega
  · intro u s hu hps
    have h1 := hInv.pfxLt u s hu
    omega

/-- A one-thread state sitting at the offset boundary, with history empty
and the counter at 1: it satisfies the invariant. -/
def c3State : Sys (Fin 1) := ⟨1, fun _ => some ⟨0, U64_MAX⟩⟩

theorem c3State_inv : SysInv c3State [] := by
  refine ⟨?_, ?_, ?_, ?_, ?_, ?_, ?_, ?_, ?_, ?_, ?_⟩
  · intro t₁ t₂ _ _ _ _ _
    exact Subsingleton.elim t₁ t₂
  · intro t s h
    replace h : some (Snowflake.mk 0 U64_MAX) = some s := h
    injection h with h
    subst h
    decide
  · intro x hx
    exact absurd hx (List.not_mem_nil x)
  · intro x hx
    exact absurd hx (List.not_mem_nil x)
  · intro x hx
    exact absurd hx (List.not_mem_nil x)
  · intro x hx
    exact absurd hx (List.not_mem_nil x)
  · intro x hx
    exact absurd hx (List.not_mem_nil x)
  · exact List.Pairwise.nil
  · exact List.Pairwise.nil
  · exact List.Pairwise.nil
  · decide

/-- Witness for C3 at the concrete boundary state `c3State`. -/
theorem boundary_rollover_witness :
    ∃ P', step c3State 0 = some (⟨0, U64_MAX⟩,
        ⟨1 + 1, Function.update c3State.locals 0 (some ⟨P', 0⟩)⟩) ∧
      (∀ x ∈ ([] : List (Fin 1 × Snowflake)), x.2.pfx ≠ P') ∧
      (∀ u s, c3State.locals u = some s → s.pfx ≠ P') :=
  boundary_rollover c3State_inv rfl (by decide)

/-- C6.  Per-thread monotonicity inside one block: from any state where
thread `t` holds `(P, O)`, N successive calls by `t` that stay below the
offset boundary (`O + N ≤ u64::MAX`) return `(P, O), (P, O+1), …,
(P, O+N-1)`, leave the slot at `(P, O+N)`, and never touch the global
counter. -/
theorem per_thread_monotonicity {σ : Sys T} {t : T} {P O : Nat} (N : Nat)
    (hl : σ.locals t = some ⟨P, O⟩) (hN : O + N ≤ U64_MAX) :
    ∃ σ' : Sys T, runFrom σ (List.replicate N t) =
        some ((List.range N).map fun i => (t, ⟨P, O + i⟩), σ') ∧
      σ'.global = σ.global ∧ σ'.locals t = some ⟨P, O + N⟩ := by
  induction N generalizing σ O with
  | zero => exact ⟨σ, rfl, rfl, hl⟩
  | succ n ih =>
    obtain ⟨σ₁, h₁, hg₁, hl₁⟩ := ih hl (by omega)
    have ho : (⟨P, O + n⟩ : Snowflake).offset ≠ U64_MAX := by
      show O + n ≠ U64_MAX
      omega
    have hs := step_fast_eq hl₁ ho
    refine ⟨⟨σ₁.global, Function.update σ₁.locals t (some ⟨P, O + n + 1⟩)⟩, ?_, hg₁, ?_⟩
    · have h2 : runFrom σ₁ [t] = some ([(t, ⟨P, O + n⟩)],
          ⟨σ₁.global, Function.update σ₁.locals t (some ⟨P, O + n + 1⟩)⟩) := by
        simp only [runFrom, hs]
      have h3 := runFrom_append h₁ h2
      rw [← List.replicate_succ'] at h3
      rw [List.range_succ, List.map_append]
      simpa using h3
    · show Function.update σ₁.locals t (some ⟨P, O + n + 1⟩) t = some ⟨P, O + (n + 1)⟩
      rw [Function.update_same]
      rfl

/-- A one-thread state holding `(5, 3)` for the C6 witness. -/
def c6State : Sys (Fin 1) := ⟨7, fun _ => some ⟨5, 3⟩⟩

/-- Witness for C6: two in-block calls from `(5, 3)`. -/
theorem per_thread_monotonicity_witness :
    ∃ σ' : Sys (Fin 1), runFrom c6State (List.replicate 2 0) =
        some ((List.range 2).map fun i => (0, ⟨5, 3 + i⟩), σ') ∧
      σ'.global = c6State.global ∧ σ'.locals 0 = some ⟨5, 3 + 2⟩ :=
  per_thread_monotonicity 2 rfl (by decide)

/-- Overwrite a thread's stored offset in place, keeping its prefix — the
mutation the repository's own test performs on `NEXT_LOCAL_SNOWFLAKE`. -/
def forceOffset (σ : Sys T) (t : T) (v : Nat) : Sys T :=
  ⟨σ.global, Function.update σ.locals t ((σ.locals t).map fun s => ⟨s.pfx, v⟩)⟩

/-- The state after the scenario's three calls (T1, T2, T1). -/
def c2Base : Sys Nat := ((runFrom sysInit [0, 1, 0]).getD ([], sysInit)).2

/-- …with T1's stored offset then forced to `u64::MAX`. -/
def c2Forced : Sys Nat := forceOffset c2Base 0 U64_MAX

/-- …and the state after one further call by T1. -/
def c2After : Sys Nat := ((step c2Forced 0).getD (⟨0, 0⟩, c2Forced)).2

/-- C2 counterexample: in the spec's concrete scenario, after T1's stored
offset is forced to `u64::MAX`, the very next call by T1 returns
`(0, u64::MAX)` — the stored pair — and not `(2, 0)` as claimed. -/
theorem concrete_scenario_cex :
    (step c2Forced 0).map Prod.fst = some ⟨0, U64_MAX⟩ ∧
    (step c2Forced 0).map Prod.fst ≠ some ⟨2, 0⟩ := by
  constructor
  · decide
  · decide

/-- C2 amended.  The scenario's first three calls return `(0,0)`, `(1,0)`,
`(0,1)` as claimed; after forcing T1's stored offset to `u64::MAX`, the
next call by T1 yields `(0, u64::MAX)`, and the call after that yields
`(2, 0)` (prefixes 0 and 1 being already consumed). -/
theorem concrete_scenario :
    outputs [0, 1, 0] = some [(0, ⟨0, 0⟩), (1, ⟨1, 0⟩), (0, ⟨0, 1⟩)] ∧
    (step c2Forced 0).map Prod.fst = some ⟨0, U64_MAX⟩ ∧
    (step c2After 0).map Prod.fst = some ⟨2, 0⟩ := by
  refine ⟨by decide, by decide, by decide⟩

/-- C4.  The Global Sequencer's postcondition: a successful `next_global`
returns the pre-increment counter and leaves the counter one greater; and
in any panic-free run in which each thread calls at most once (a `Nodup`
trace), the returned prefixes are pairwise distinct. -/
theorem next_global_post :
    (∀ g p g', next_global g = (some p, g') → p = g ∧ g' = g + 1) ∧
    (∀ (tr : List T) (out : List (T × Snowflake)), tr.Nodup →
      outputs tr = some out →
      List.Pairwise (fun a b => a ≠ b) (out.map fun x => x.2.pfx)) := by
  constructor
  · intro g p g' h
    unfold next_global at h
    by_cases hg : g < USIZE_MAX
    · rw [if_pos hg] at h
      obtain ⟨h₁, h₂⟩ := Prod.mk.injEq .. ▸ h
      exact ⟨(Option.some.inj h₁).symm, h₂.symm⟩
    · rw [if_neg hg] at h
      obtain ⟨h₁, h₂⟩ := Prod.mk.injEq .. ▸ h
      exact Option.noConfusion h₁
  · intro tr out hnd h
    obtain ⟨σ, hr, hInv⟩ := outputs_inv h
    have hfst : out.map Prod.fst = tr := runFrom_fst hr
    have h1 : List.Pairwise (fun a b : T × Snowflake => a.1 ≠ b.1) out :=
      List.pairwise_map.1 (hfst.symm ▸ hnd)
    have h2 := List.Pairwise.and h1 hInv.outPfxThread
    refine List.pairwise_map.2 (h2.imp ?_)
    intro a b hab hpe
    exact hab.1 (hab.2 hpe)

/-- Witness for C4: a concrete acquisition and a two-thread run. -/
theorem next_global_post_witness :
    ((5 : Nat) = 5 ∧ (6 : Nat) = 5 + 1) ∧
    List.Pairwise (fun a b => a ≠ b)
      (([(0, ⟨0, 0⟩), (1, ⟨1, 0⟩)] : List (Nat × Snowflake)).map fun x => x.2.pfx) :=
  ⟨(next_global_post (T := Nat)).1 5 5 6 (by decide),
   (next_global_post (T := Nat)).2 [0, 1] [(0, ⟨0, 0⟩), (1, ⟨1, 0⟩)]
     (by decide) (by decide)⟩

/-- C5.  Exhaustion contract: for a counter value representable in
`usize`, `next_global` panics (the assertion fires) iff the counter equals
`usize::MAX`, and on the panic path the counter is unchanged (the
assertion precedes the compare-and-swap). -/
theorem exhaustion_iff {g : Nat} (hg : g ≤ USIZE_MAX) :
    ((next_global g).1 = none ↔ g = USIZE_MAX) ∧
    ((next_global g).1 = none → (next_global g).2 = g) := by
  constructor
  · constructor
    · intro h
      unfold next_global at h
      by_cases h' : g < USIZE_MAX
      · rw [if_pos h'] at h
        exact absurd h (by simp)
      · omega
    · intro h
      subst h
      rw [next_global, if_neg (Nat.lt_irrefl _)]
  · intro h
    unfold next_global at h ⊢
    by_cases h' : g < USIZE_MAX
    · rw [if_pos h'] at h
      exact absurd h (by simp)
    · rw [if_neg h']

/-- Witness for C5 at the exhausted counter value. -/
theorem exhaustion_iff_witness :
    ((next_global USIZE_MAX).1 = none ↔ USIZE_MAX = USIZE_MAX) ∧
    ((next_global USIZE_MAX).1 = none → (next_global USIZE_MAX).2 = USIZE_MAX) :=
  exhaustion_iff (Nat.le_refl _)

/-- C7.  Within-thread strict increase across blocks: along any
panic-free interleaving from the fresh state, the identifiers issued to
any single thread are strictly increasing in lexicographic
`(prefix, offset)` order — including across rollovers, since a freshly
acquired prefix exceeds every earlier one. -/
theorem within_thread_strict_increase {tr : List T} {out : List (T × Snowflake)}
    (t : T) (h : outputs tr = some out) :
    List.Pairwise Snowflake.lexLt (issuedTo t out) := by
  obtain ⟨σ, _, hInv⟩ := outputs_inv h
  unfold issuedTo
  refine List.pairwise_map.2 ?_
  have h1 := hInv.outThreadMono.filter (fun x => x.1 == t)
  refine List.Pairwise.imp_of_mem ?_ h1
  intro a b ha hb hab
  have e₁ : a.1 = t := by simpa using (List.mem_filter.1 ha).2
  have e₂ : b.1 = t := by simpa using (List.mem_filter.1 hb).2
  exact hab (by rw [e₁, e₂])

/-- Witness for C7 on the interleaving T1, T2, T1. -/
theorem within_thread_strict_increase_witness :
    List.Pairwise Snowflake.lexLt
      (issuedTo 0 [(0, ⟨0, 0⟩), (1, ⟨1, 0⟩), (0, ⟨0, 1⟩)]) :=
  @within_thread_strict_increase Nat _ [0, 1, 0]
    [(0, ⟨0, 0⟩), (1, ⟨1, 0⟩), (0, ⟨0, 1⟩)] 0 (by decide)

/-- C8.  `Snowflake::default()` is the same operation as
`Snowflake::new()`: on every whole-process state it is the very same
transition, and on every (counter, slot) pair the very same call. -/
theorem default_equiv_new :
    (∀ (σ : Sys T) (t : T), stepDefault σ t = step σ t) ∧
    (∀ (g : Nat) (loc : Option Snowflake),
      Snowflake.defaultCall g loc = threadNew g loc) :=
  ⟨fun _ _ => rfl, fun _ _ => rfl⟩

/-- C9.  The derived equality is exactly field-wise: `A == B` iff the
prefixes agree and the offsets agree; identically-built values compare
equal, and a (bitwise) copy compares equal to its source. -/
theorem eq_is_fieldwise :
    (∀ a b : Snowflake, a.beq b = true ↔ a.pfx = b.pfx ∧ a.offset = b.offset) ∧
    (∀ p o : Nat, (Snowflake.mk p o).beq ⟨p, o⟩ = true) ∧
    (∀ a : Snowflake, a.beq a = true) := by
  refine ⟨?_, ?_, ?_⟩
  · intro a b
    simp [Snowflake.beq]
  · intro p o
    simp [Snowflake.beq]
  · intro a
    simp [Snowflake.beq]

/-- Witness for C9 at concrete field values. -/
theorem eq_is_fieldwise_witness :
    ((Snowflake.mk 3 4).beq ⟨3, 4⟩ = true ↔ (3 : Nat) = 3 ∧ (4 : Nat) = 4) ∧
    (Snowflake.mk 7 8).beq ⟨7, 8⟩ = true ∧
    (Snowflake.mk 1 2).beq ⟨1, 2⟩ = true :=
  ⟨eq_is_fieldwise.1 ⟨3, 4⟩ ⟨3, 4⟩, eq_is_fieldwise.2.1 7 8,
   eq_is_fieldwise.2.2 ⟨1, 2⟩⟩

/-- C10.  `usize::MAX` is never handed out: every successful
`next_global` returns a value strictly below `usize::MAX`, so every
issued identifier's prefix is at most `usize::MAX - 1`; yet the counter
itself does reach `usize::MAX` (on the call returning `usize::MAX - 1`). -/
theorem max_prefix_bound :
    (∀ g p g', next_global g = (some p, g') → p < USIZE_MAX) ∧
    (∀ (tr : List T) (out : List (T × Snowflake)), outputs tr = some out →
      ∀ x ∈ out, x.2.pfx ≤ USIZE_MAX - 1) ∧
    next_global (USIZE_MAX - 1) = (some (USIZE_MAX - 1), USIZE_MAX) := by
  refine ⟨?_, ?_, ?_⟩
  · intro g p g' h
    unfold next_global at h
    by_cases hg : g < USIZE_MAX
    · rw [if_pos hg] at h
      obtain ⟨h₁, h₂⟩ := Prod.mk.injEq .. ▸ h
      obtain rfl := Option.some.inj h₁
      exact hg
    · rw [if_neg hg] at h
      obtain ⟨h₁, h₂⟩ := Prod.mk.injEq .. ▸ h
      exact Option.noConfusion h₁
  · intro tr out h x hx
    obtain ⟨σ, _, hInv⟩ := outputs_inv h
    have h1 := hInv.outPfxLt x hx
    have h2 := hInv.globalLe
    omega
  · decide

/-- Witness for C10: a concrete acquisition and a concrete one-call run. -/
theorem max_prefix_bound_witness :
    (3 : Nat) < USIZE_MAX ∧
    (∀ x ∈ ([(0, ⟨0, 0⟩)] : List (Nat × Snowflake)), x.2.pfx ≤ USIZE_MAX - 1) :=
  ⟨(max_prefix_bound (T := Nat)).1 3 3 4 (by decide),
   (max_prefix_bound (T := Nat)).2.1 [0] [(0, ⟨0, 0⟩)] (by decide)⟩
